import Mathlib

/-!
Shallow embedding of the form-state engine of this repository
(path engine, useWatch subscription filtering, field-array manager,
submit flow, validation staleness, state-channel gating, touched
tracking), with theorems settling the specification claims.
-/

set_option maxHeartbeats 1000000

namespace FormCore

/-- A JavaScript-like value tree: the ValueTree / mirrors are nested
objects and arrays whose leaves are strings, numbers, booleans or
`undefined`. -/
inductive Val where
  | undef : Val
  | str : String → Val
  | num : Int → Val
  | bool : Bool → Val
  | obj : List (String × Val) → Val
  | arr : List Val → Val
deriving Repr, Inhabited

/-- JS `isUndefined(value)` as used throughout the source. -/
def isUndefined : Val → Bool
  | Val.undef => true
  | _ => false

/-- One segment of a field path: a non-numeric segment addresses an
object key, a numeric segment addresses an array index. -/
inductive Seg where
  | key : String → Seg
  | idx : Nat → Seg
deriving Repr, DecidableEq, Inhabited

/-- Lookup of an object key in an association list (JS property read). -/
def lookupKey : List (String × Val) → String → Val
  | [], _ => Val.undef
  | (k, v) :: rest, k' => if k = k' then v else lookupKey rest k'

/-- Insert-or-replace of an object key in an association list
(JS property write). -/
def upsertKey : List (String × Val) → String → Val → List (String × Val)
  | [], k, v => [(k, v)]
  | (k', v') :: rest, k, v =>
      if k' = k then (k, v) :: rest else (k', v') :: upsertKey rest k v

/-- Write at array index `i`, growing the array and filling intermediate
slots with `undefined` when `i` is beyond the current length
(JS `xs[i] = v`). -/
def padSet : List Val → Nat → Val → List Val
  | _ :: xs, 0, v => v :: xs
  | [], 0, v => [v]
  | x :: xs, Nat.succ i, v => x :: padSet xs i v
  | [], Nat.succ i, v => Val.undef :: padSet [] i v

/-- Read at array index `i`, `undefined` when out of range. -/
def idxGet (xs : List Val) (i : Nat) : Val :=
  match xs.get? i with
  | some v => v
  | none => Val.undef

/-- Modelled from the spec: the Path Engine's `get(tree, path)` — walks
the tree segment by segment, returning `undefined` on any mismatch
(the implementation of the path utilities is not included under src/,
only described by §4.1 of the spec). -/
def Val.get : Val → List Seg → Val
  | v, [] => v
  | t, Seg.key k :: rest =>
      (match t with
        | Val.obj kvs => lookupKey kvs k
        | _ => Val.undef).get rest
  | t, Seg.idx i :: rest =>
      (match t with
        | Val.arr xs => idxGet xs i
        | _ => Val.undef).get rest

/-- Modelled from the spec: the Path Engine's `set(tree, path, value)` —
creates intermediate objects/arrays as needed; a numeric segment grows
the array, filling intermediate slots with `undefined` (§4.1; the path
utilities are not included under src/). -/
def Val.set : Val → List Seg → Val → Val
  | _, [], v => v
  | t, Seg.key k :: rest, v =>
      let kvs := match t with
        | Val.obj kvs => kvs
        | _ => []
      Val.obj (upsertKey kvs k ((lookupKey kvs k).set rest v))
  | t, Seg.idx i :: rest, v =>
      let xs := match t with
        | Val.arr xs => xs
        | _ => []
      Val.arr (padSet xs i ((idxGet xs i).set rest v))

theorem lookupKey_upsertKey (kvs : List (String × Val)) (k : String) (v : Val) :
    lookupKey (upsertKey kvs k v) k = v := by
  induction kvs with
  | nil => simp [upsertKey, lookupKey]
  | cons hd tl ih =>
      obtain ⟨k', v'⟩ := hd
      by_cases h : k' = k
      · simp [upsertKey, lookupKey, h]
      · simp [upsertKey, lookupKey, h, ih]

theorem idxGet_padSet (xs : List Val) (i : Nat) (v : Val) :
    idxGet (padSet xs i v) i = v := by
  induction xs generalizing i with
  | nil =>
      induction i with
      | zero => simp [padSet, idxGet]
      | succ j ih => simpa [padSet, idxGet, List.get?] using ih
  | cons x xs ih =>
      cases i with
      | zero => simp [padSet, idxGet]
      | succ j => simpa [padSet, idxGet, List.get?] using ih j

theorem get_set_roundtrip (t : Val) (p : List Seg) (v : Val) :
    (t.set p v).get p = v := by
  induction p generalizing t with
  | nil => rfl
  | cons s rest ih =>
      cases s with
      | key k => simpa [Val.set, Val.get, lookupKey_upsertKey] using ih _
      | idx i => simpa [Val.set, Val.get, idxGet_padSet] using ih _

theorem padSet_grows (xs : List Val) (i : Nat) (v : Val)
    (h : xs.length ≤ i) :
    padSet xs i v = xs ++ List.replicate (i - xs.length) Val.undef ++ [v] := by
  induction xs generalizing i with
  | nil =>
      induction i with
      | zero => simp [padSet]
      | succ j ih => simp [padSet, List.replicate_succ]; simpa using ih (Nat.zero_le j)
  | cons x xs ih =>
      cases i with
      | zero => simp at h
      | succ j =>
          simp only [padSet, List.length_cons, Nat.succ_sub_succ]
          have := ih j (Nat.le_of_succ_le_succ h)
          simp [this]

/-! ### The useWatch hook (src/src/types/form.ts, lines 838-877) -/

/-- String equality through the character list, so that every proof
obligation evaluates inside the kernel. -/
def strEq (a b : String) : Bool := a.data == b.data

/-- `p` is a plain character-wise prefix of `s`. -/
def charsLe : List Char → List Char → Bool
  | [], _ => true
  | _ :: _, [] => false
  | a :: as, b :: bs => a == b && charsLe as bs

/-- JS `s.startsWith(p)` (plain string prefix). -/
def jsStartsWith (s p : String) : Bool := charsLe p.data s.data

/-- The `name` prop of a `useWatch` subscriber: absent, a single path
string, or an array of path strings. -/
inductive WatchName where
  | noName : WatchName
  | single (s : String) : WatchName
  | multi (l : List String) : WatchName
deriving Repr

/-- JS truthiness of the `name` prop: `undefined` and the empty string
are falsy; an array is always truthy. -/
def WatchName.isFalsy : WatchName → Bool
  | .noName => true
  | .single s => strEq s ""
  | .multi _ => false

/-- `Array.isArray(name) ? name : [name]` for a present name. -/
def WatchName.toList : WatchName → List String
  | .noName => []
  | .single s => [s]
  | .multi l => l

/-- JS truthiness of the event's `name` (`inputName`): `undefined` and
the empty string are falsy. -/
def optFalsy : Option String → Bool
  | none => true
  | some s => strEq s ""

/-- `isString(inputName)` from the source. -/
def isStringOpt : Option String → Bool
  | some _ => true
  | none => false

/-- `name === inputName` from the source, for a string `inputName`:
only a single string name can be strictly equal to it. -/
def nameEqInput : WatchName → Option String → Bool
  | .single ns, some s => strEq ns s
  | _, _ => false

/-- The subscription filter of `useWatch` (src/src/types/form.ts lines
857-864): `!name || !inputName ||
(Array.isArray(name) ? name : [name]).some(fieldName =>
inputName && fieldName && inputName.startsWith(fieldName))`. -/
def watchFilter (name : WatchName) (inputName : Option String) : Bool :=
  name.isFalsy || optFalsy inputName ||
    name.toList.any (fun fieldName =>
      !optFalsy inputName && !strEq fieldName "" &&
        jsStartsWith (inputName.getD "") fieldName)

/-- Character-level splitting of a path string at the dots. -/
def splitDotsAux : List Char → List Char → List String
  | [], acc => [String.mk acc.reverse]
  | c :: cs, acc =>
      if c = '.' then String.mk acc.reverse :: splitDotsAux cs []
      else splitDotsAux cs (c :: acc)

/-- Split a path string into its dot-separated segments. -/
def splitDots (s : String) : List String := splitDotsAux s.data []

/-- Decimal value of a digit list, `none` on a non-digit. -/
def natOfCharsAux : List Char → Nat → Option Nat
  | [], acc => some acc
  | c :: cs, acc =>
      if c.isDigit then natOfCharsAux cs (acc * 10 + (c.toNat - 48)) else none

/-- Parse a purely numeric path segment. -/
def natOfString (s : String) : Option Nat :=
  match s.data with
  | [] => none
  | l => natOfCharsAux l 0

/-- A path segment string becomes an array index when numeric, an object
key otherwise. -/
def parseSeg (s : String) : Seg :=
  match natOfString s with
  | some n => Seg.idx n
  | none => Seg.key s

/-- A dotted path string as a list of segments. -/
def parsePath (s : String) : List Seg := (splitDots s).map parseSeg

/-- Modelled from the spec: the matching discipline §4.5 asks for — the
subscription name's dot-separated segments are a segment-wise prefix of
the event path's segments ("prefix match on path segments, not plain
string prefix"). -/
def segsLe : List String → List String → Bool
  | [], _ => true
  | _ :: _, [] => false
  | a :: as, b :: bs => strEq a b && segsLe as bs

/-- Segment-wise path-prefix matching of an event path against a
subscription name, following the spec's words. -/
def segPrefixMatch (subName evtName : String) : Bool :=
  segsLe (splitDots subName) (splitDots evtName)

/-- Modelled from the spec: `watchInternal(fieldNames, defaultValue)` —
reads the current ValueTree at the requested name(s); with no name it
returns the whole tree; the supplied default value stands in when the
tree holds nothing at a single requested name. (Its implementation
lives in useForm, which is not under src/.) -/
def watchInternalM (tree : Val) (name : WatchName) (defaultValue : Option Val) : Val :=
  match name with
  | .noName => tree
  | .single s =>
      let v := tree.get (parsePath s)
      if isUndefined v then defaultValue.getD Val.undef else v
  | .multi l => Val.arr (l.map (fun s => tree.get (parsePath s)))

/-- The initial value computation of `useWatch` (lines 846-850):
`isUndefined(defaultValue) ? watchInternal(name) : defaultValue`. -/
def useWatchInit (tree : Val) (name : WatchName) (defaultValue : Option Val) : Val :=
  match defaultValue with
  | none => watchInternalM tree name none
  | some d => d

/-- The new-value computation of `useWatch`'s subscriber (lines 865-869):
`isString(inputName) && name === inputName && !isUndefined(value) ?
value : watchInternal(name, defaultValue)`. -/
def nextWatchValue (tree : Val) (name : WatchName) (defaultValue : Option Val)
    (inputName : Option String) (evtVal : Val) : Val :=
  if isStringOpt inputName && nameEqInput name inputName && !isUndefined evtVal
  then evtVal
  else watchInternalM tree name defaultValue

end FormCore

namespace FormCore

/-- C1 counterexample: the code's filter notifies a subscriber watching
`test` for an event at the distinct sibling path `test1` (plain
`startsWith`), although `test1` is not a segment-wise descendant of
`test`, so notification is not "exactly when" the segment-wise
prefix relation holds. -/
theorem C1_counterexample :
    watchFilter (WatchName.single "test") (some "test1") = true ∧
    segPrefixMatch "test" "test1" = false := by
  constructor
  · rfl
  · rfl

/-- C1 (amended): a subscriber is notified exactly when its name is
absent/empty, or the event's name is absent/empty, or the event name
extends one of the subscribed names as a plain string prefix
(`startsWith`) — so a subscriber watching `test` IS notified for a
change at `test1`. -/
theorem C1_watch_filter_characterization :
    ∀ (n : WatchName) (inp : Option String),
      watchFilter n inp = true ↔
        (n.isFalsy = true ∨ optFalsy inp = true ∨
          ∃ f ∈ n.toList, strEq f "" = false ∧
            jsStartsWith (inp.getD "") f = true) := by
  intro n inp
  cases hf : n.isFalsy <;> cases hi : optFalsy inp <;>
    simp [watchFilter, hf, hi, List.any_eq_true, Bool.and_eq_true, and_assoc]

/-- C8: Path Engine round-trip — `get (set tree P v) P = v` for every
tree, path and value; and setting a fresh array index beyond the
current length grows the array, filling the intermediate slots with
`undefined`. -/
theorem C8_path_engine_roundtrip :
    (∀ (t : Val) (p : List Seg) (v : Val), (t.set p v).get p = v) ∧
    (∀ (xs : List Val) (i : Nat) (v : Val), xs.length ≤ i →
      (Val.arr xs).set [Seg.idx i] v =
        Val.arr (xs ++ List.replicate (i - xs.length) Val.undef ++ [v])) := by
  refine ⟨get_set_roundtrip, fun xs i v h => ?_⟩
  simp [Val.set, padSet_grows xs i v h]

/-- C8 witness: the round trip and the growth behaviour at concrete
inputs. -/
theorem C8_path_engine_roundtrip_witness :
    ((Val.obj []).set [Seg.key "a"] (Val.num 3)).get [Seg.key "a"] = Val.num 3 ∧
    (Val.arr [Val.num 1]).set [Seg.idx 3] (Val.num 7) =
      Val.arr ([Val.num 1] ++ List.replicate (3 - [Val.num 1].length) Val.undef
        ++ [Val.num 7]) :=
  ⟨C8_path_engine_roundtrip.1 _ _ _,
   C8_path_engine_roundtrip.2 [Val.num 1] 3 (Val.num 7) (by simp)⟩

/-- C9: on its first render useWatch initializes its value to the
provided defaultValue whenever that defaultValue is not undefined —
independently of the value tree — and reads the tree through
watchInternal exactly when the defaultValue is undefined. -/
theorem C9_useWatch_initial_value :
    (∀ (t₁ t₂ : Val) (n : WatchName) (d : Val),
        useWatchInit t₁ n (some d) = d ∧
        useWatchInit t₁ n (some d) = useWatchInit t₂ n (some d)) ∧
    (∀ (t : Val) (n : WatchName),
        useWatchInit t n none = watchInternalM t n none) :=
  ⟨fun _ _ _ _ => ⟨rfl, rfl⟩, fun _ _ => rfl⟩

/-- C10: an event with an undefined name passes every subscriber's
filter; a subscriber with no name passes on every event; in both cases
(and whenever the event name differs from a single subscribed name, or
the carried value is undefined) the new value is recomputed via
watchInternal; the carried value is used directly exactly when the
event name equals the subscriber's single string name and the value is
defined. -/
theorem C10_useWatch_event_dispatch :
    (∀ n : WatchName, watchFilter n none = true) ∧
    (∀ inp : Option String, watchFilter WatchName.noName inp = true) ∧
    (∀ (t : Val) (n : WatchName) (dv : Option Val) (evtv : Val),
        nextWatchValue t n dv none evtv = watchInternalM t n dv) ∧
    (∀ (t : Val) (dv : Option Val) (inp : Option String) (evtv : Val),
        nextWatchValue t WatchName.noName dv inp evtv
          = watchInternalM t WatchName.noName dv) ∧
    (∀ (t : Val) (dv : Option Val) (l : List String) (inp : Option String)
        (evtv : Val),
        nextWatchValue t (WatchName.multi l) dv inp evtv
          = watchInternalM t (WatchName.multi l) dv) ∧
    (∀ (t : Val) (dv : Option Val) (ns s : String) (evtv : Val),
        strEq ns s = false →
        nextWatchValue t (WatchName.single ns) dv (some s) evtv
          = watchInternalM t (WatchName.single ns) dv) ∧
    (∀ (t : Val) (n : WatchName) (dv : Option Val) (inp : Option String),
        nextWatchValue t n dv inp Val.undef = watchInternalM t n dv) ∧
    (∀ (t : Val) (dv : Option Val) (s : String) (evtv : Val),
        isUndefined evtv = false →
        nextWatchValue t (WatchName.single s) dv (some s) evtv = evtv) := by
  refine ⟨?_, ?_, ?_, ?_, ?_, ?_, ?_, ?_⟩
  · intro n; simp [watchFilter, optFalsy]
  · intro inp; simp [watchFilter, WatchName.isFalsy]
  · intro t n dv evtv; simp [nextWatchValue, isStringOpt]
  · intro t dv inp evtv
    cases inp <;> simp [nextWatchValue, isStringOpt, nameEqInput]
  · intro t dv l inp evtv
    cases inp <;> simp [nextWatchValue, isStringOpt, nameEqInput]
  · intro t dv ns s evtv h; simp [nextWatchValue, nameEqInput, h]
  · intro t n dv inp; simp [nextWatchValue, isUndefined]
  · intro t dv s evtv h
    simp [nextWatchValue, nameEqInput, isStringOpt, strEq, h]

/-- C10 witness: the dispatch rules applied at concrete inputs. -/
theorem C10_useWatch_event_dispatch_witness :
    (isUndefined (Val.num 5) = false ∧
      nextWatchValue Val.undef (WatchName.single "a") none (some "a")
        (Val.num 5) = Val.num 5) ∧
    (strEq "a" "b" = false ∧
      nextWatchValue Val.undef (WatchName.single "a") none (some "b")
        (Val.num 5) = watchInternalM Val.undef (WatchName.single "a") none) :=
  ⟨⟨rfl, C10_useWatch_event_dispatch.2.2.2.2.2.2.2 _ _ _ _ rfl⟩,
   ⟨rfl, C10_useWatch_event_dispatch.2.2.2.2.2.1 _ _ _ _ _ rfl⟩⟩

/-! ### Generic list reindexing operations (Field Array Manager, §4.6) -/

/-- JS `xs.splice(p, 0, ...news)`: insert a block at position `p`,
clamped to the end of the list. -/
def listInsertAll (p : Nat) (news : List α) : List α → List α
  | [] => news
  | x :: xs =>
      match p with
      | 0 => news ++ x :: xs
      | Nat.succ m => x :: listInsertAll m news xs

/-- JS `xs.splice(j, 1)`: remove the element at position `j` (no-op when
out of range). -/
def listRemoveAt (j : Nat) : List α → List α
  | [] => []
  | x :: xs =>
      match j with
      | 0 => xs
      | Nat.succ m => x :: listRemoveAt m xs

/-- Apply `f` to the element at position `i` (no-op when out of range). -/
def listModify (f : α → α) (i : Nat) : List α → List α
  | [] => []
  | x :: xs =>
      match i with
      | 0 => f x :: xs
      | Nat.succ m => x :: listModify f m xs

/-- The index exchange underlying `swap`. -/
def swapIdx (a b i : Nat) : Nat :=
  if i = a then b else if i = b then a else i

theorem swapIdx_lt {a b n : Nat} (ha : a < n) (hb : b < n) {i : Nat}
    (hi : i < n) : swapIdx a b i < n := by
  unfold swapIdx
  split
  · exact hb
  · split
    · exact ha
    · exact hi

/-- `swap(a, b)`: exchange the elements at the two positions (no-op
unless both are in range). -/
def listSwap (a b : Nat) (xs : List α) : List α :=
  if h : a < xs.length ∧ b < xs.length then
    List.ofFn (fun i : Fin xs.length =>
      xs.get ⟨swapIdx a b i.val, swapIdx_lt h.1 h.2 i.isLt⟩)
  else xs

/-- `move(f, t)`: remove the element at `f` and re-insert it at `t`
(no-op when `f` is out of range). -/
def listMove (f t : Nat) (xs : List α) : List α :=
  match xs[f]? with
  | some x => listInsertAll t [x] (listRemoveAt f xs)
  | none => xs

theorem getElem?_listInsertAll (xs news : List α) (p i : Nat) :
    (listInsertAll p news xs)[i]? =
      (if i < min p xs.length then xs[i]?
       else if i < min p xs.length + news.length then news[i - min p xs.length]?
       else xs[i - news.length]?) := by
  induction xs generalizing p i with
  | nil =>
      simp only [listInsertAll, List.length_nil, Nat.min_zero, Nat.zero_add,
        Nat.not_lt_zero, if_false, Nat.sub_zero]
      by_cases h : i < news.length
      · simp [h]
      · simp [h, List.getElem?_eq_none (Nat.le_of_not_lt h),
          List.getElem?_eq_none (Nat.le_of_not_lt h)]
  | cons x xs ih =>
      cases p with
      | zero =>
          simp only [listInsertAll, Nat.min_def]
          by_cases h : i < news.length
          · simp [List.getElem?_append_left h, h]
          · have hle : news.length ≤ i := Nat.le_of_not_lt h
            simp [List.getElem?_append_right hle, h]
      | succ m =>
          cases i with
          | zero =>
              have : 0 < min (m + 1) (x :: xs).length := by
                rw [List.length_cons]; omega
              simp [listInsertAll, this]
          | succ j =>
              have hmin : min (m + 1) (x :: xs).length = min m xs.length + 1 := by
                rw [List.length_cons]; omega
              rw [hmin]
              simp only [listInsertAll, List.getElem?_cons_succ]
              rw [ih m j]
              by_cases h1 : j < min m xs.length
              · simp [h1, Nat.succ_lt_succ h1]
              · have h1' : ¬ j + 1 < min m xs.length + 1 := by omega
                simp only [if_neg h1, if_neg h1']
                by_cases h2 : j < min m xs.length + news.length
                · have h2' : j + 1 < min m xs.length + 1 + news.length := by omega
                  have : j + 1 - (min m xs.length + 1) = j - min m xs.length := by
                    omega
                  simp [h2, h2', this]
                · have h2' : ¬ j + 1 < min m xs.length + 1 + news.length := by
                    omega
                  have hk : news.length ≤ j := by omega
                  have : j + 1 - news.length = (j - news.length) + 1 := by omega
                  simp [h2, h2', this]

theorem getElem?_listRemoveAt (xs : List α) (j i : Nat) (h : j < xs.length) :
    (listRemoveAt j xs)[i]? = if i < j then xs[i]? else xs[i + 1]? := by
  induction xs generalizing j i with
  | nil => simp at h
  | cons x xs ih =>
      cases j with
      | zero => simp [listRemoveAt]
      | succ m =>
          cases i with
          | zero => simp [listRemoveAt]
          | succ k =>
              have hm : m < xs.length := by simpa using h
              simp only [listRemoveAt, List.getElem?_cons_succ]
              rw [ih m k hm]
              by_cases hk : k < m
              · simp [hk, Nat.succ_lt_succ hk]
              · have : ¬ k + 1 < m + 1 := by omega
                simp [hk, this]

theorem listRemoveAt_of_ge (xs : List α) (j : Nat) (h : xs.length ≤ j) :
    listRemoveAt j xs = xs := by
  induction xs generalizing j with
  | nil => cases j <;> rfl
  | cons x xs ih =>
      cases j with
      | zero => simp at h
      | succ m => simp [listRemoveAt, ih m (by simpa using h)]

theorem length_listRemoveAt (xs : List α) (j : Nat) (h : j < xs.length) :
    (listRemoveAt j xs).length = xs.length - 1 := by
  induction xs generalizing j with
  | nil => simp at h
  | cons x xs ih =>
      cases j with
      | zero => simp [listRemoveAt]
      | succ m =>
          have hm : m < xs.length := by simpa using h
          simp only [listRemoveAt, List.length_cons, ih m hm]
          omega

theorem getElem?_listModify (f : α → α) (j : Nat) (xs : List α) (i : Nat) :
    (listModify f j xs)[i]? =
      if i = j then (xs[j]?).map f else xs[i]? := by
  induction xs generalizing j i with
  | nil => simp [listModify]
  | cons x xs ih =>
      cases j with
      | zero =>
          cases i with
          | zero => simp [listModify]
          | succ k => simp [listModify]
      | succ m =>
          cases i with
          | zero => simp [listModify]
          | succ k =>
              simp only [listModify, List.getElem?_cons_succ]
              rw [ih m k]
              by_cases hk : k = m
              · simp [hk]
              · simp [hk, fun h => hk (Nat.succ_injective h)]

theorem getElem?_listSwap (xs : List α) (a b : Nat)
    (ha : a < xs.length) (hb : b < xs.length) (i : Nat) :
    (listSwap a b xs)[i]? = xs[swapIdx a b i]? := by
  unfold listSwap
  rw [dif_pos ⟨ha, hb⟩]
  rw [List.getElem?_ofFn]
  unfold List.ofFnNthVal
  split
  · rename_i h
    simp [List.getElem?_eq_getElem (swapIdx_lt ha hb h), List.get_eq_getElem]
  · rename_i h
    have hi : xs.length ≤ i := Nat.le_of_not_lt h
    have : xs.length ≤ swapIdx a b i := by
      unfold swapIdx
      split
      · omega
      · split
        · omega
        · exact hi
    simp [List.getElem?_eq_none this]

theorem getElem?_listMove (xs : List α) (f t i : Nat) (hf : f < xs.length) :
    (listMove f t xs)[i]? =
      (if i < min t (xs.length - 1) then (if i < f then xs[i]? else xs[i + 1]?)
       else if i = min t (xs.length - 1) then xs[f]?
       else if i - 1 < f then xs[i - 1]? else xs[i]?) := by
  have hx : xs[f]? = some xs[f] := List.getElem?_eq_getElem hf
  unfold listMove
  rw [hx]
  simp only
  rw [getElem?_listInsertAll, length_listRemoveAt xs f hf]
  simp only [List.length_singleton]
  by_cases h1 : i < min t (xs.length - 1)
  · rw [if_pos h1, if_pos h1, getElem?_listRemoveAt xs f i hf]
  · rw [if_neg h1, if_neg h1]
    by_cases h2 : i = min t (xs.length - 1)
    · have hlt : i < min t (xs.length - 1) + 1 := by omega
      rw [if_pos hlt, if_pos h2]
      have h0 : i - min t (xs.length - 1) = 0 := by omega
      rw [h0]
      simp
    · have hge : ¬ i < min t (xs.length - 1) + 1 := by omega
      rw [if_neg hge, if_neg h2, getElem?_listRemoveAt xs f (i - 1) hf]
      have h11 : i - 1 + 1 = i := by omega
      rw [h11]


/-! ### Field Array Manager state (§4.6) -/

/-- Fresh identities for newly inserted elements: `generateId` is an
incrementing counter (as the repository's tests mock it), paired with
each inserted value. -/
def genIds : Nat → List Val → List (Nat × Val)
  | _, [] => []
  | c, v :: vs => (c, v) :: genIds (c + 1) vs

/-- The identity block `[c, c+1, ..., c+n-1]`. -/
def idsFrom : Nat → Nat → List Nat
  | _, 0 => []
  | c, Nat.succ n => c :: idsFrom (c + 1) n

theorem genIds_map_fst (c : Nat) (vs : List Val) :
    (genIds c vs).map Prod.fst = idsFrom c vs.length := by
  induction vs generalizing c with
  | nil => rfl
  | cons v vs ih => simp [genIds, idsFrom, ih]

theorem length_genIds (c : Nat) (vs : List Val) :
    (genIds c vs).length = vs.length := by
  induction vs generalizing c with
  | nil => rfl
  | cons v vs ih => simp [genIds, ih]

theorem getElem?_genIds (c : Nat) (vs : List Val) (m : Nat) :
    (genIds c vs)[m]? = (vs[m]?).map (fun v => (c + m, v)) := by
  induction vs generalizing c m with
  | nil => simp [genIds]
  | cons v vs ih =>
      cases m with
      | zero => simp [genIds]
      | succ k =>
          simp only [genIds, List.getElem?_cons_succ, ih (c + 1) k]
          have : c + 1 + k = c + (k + 1) := by omega
          rw [this]

theorem mem_idsFrom {x c n : Nat} : x ∈ idsFrom c n ↔ c ≤ x ∧ x < c + n := by
  induction n generalizing c with
  | zero => simp [idsFrom]
  | succ m ih =>
      simp only [idsFrom, List.mem_cons, ih]
      omega

theorem nodup_idsFrom (c n : Nat) : (idsFrom c n).Nodup := by
  induction n generalizing c with
  | zero => exact List.nodup_nil
  | succ m ih =>
      simp only [idsFrom, List.nodup_cons, mem_idsFrom]
      exact ⟨by omega, ih (c + 1)⟩

/-- Modelled from the spec: the Field Array Manager's state for a single
array-valued field — the elements with their generated identities, the
DirtyMirror / TouchedMirror / ErrorTree fragments indexed under that
array (one optional per-element subtree each), and the
identity-generation counter. (useFieldArray's implementation is not
under src/; only its tests are.) -/
structure FA where
  fields : List (Nat × Val)
  dirty : List (Option Val)
  touched : List (Option Val)
  errors : List (Option Val)
  nextId : Nat

/-- The mirrors track the value elements index for index. -/
def FA.Aligned (s : FA) : Prop :=
  s.dirty.length = s.fields.length ∧
  s.touched.length = s.fields.length ∧
  s.errors.length = s.fields.length

/-- `insert(index, value|value[])`: fresh identities for the inserted
elements, the mirrors reindexed by inserting empty slots at the same
position. -/
def FA.insertAt (s : FA) (p : Nat) (vs : List Val) : FA where
  fields := listInsertAll p (genIds s.nextId vs) s.fields
  dirty := listInsertAll p (List.replicate vs.length none) s.dirty
  touched := listInsertAll p (List.replicate vs.length none) s.touched
  errors := listInsertAll p (List.replicate vs.length none) s.errors
  nextId := s.nextId + vs.length

/-- `prepend(value|value[])`. -/
def FA.prependN (s : FA) (vs : List Val) : FA := s.insertAt 0 vs

/-- `append(value|value[])`. -/
def FA.appendN (s : FA) (vs : List Val) : FA := s.insertAt s.fields.length vs

/-- `remove(index)`: the element and its mirror entries disappear,
every later entry shifts down. -/
def FA.removeAt (s : FA) (j : Nat) : FA where
  fields := listRemoveAt j s.fields
  dirty := listRemoveAt j s.dirty
  touched := listRemoveAt j s.touched
  errors := listRemoveAt j s.errors
  nextId := s.nextId

/-- `swap(a, b)`. -/
def FA.swapAt (s : FA) (a b : Nat) : FA where
  fields := listSwap a b s.fields
  dirty := listSwap a b s.dirty
  touched := listSwap a b s.touched
  errors := listSwap a b s.errors
  nextId := s.nextId

/-- `move(from, to)`. -/
def FA.moveAt (s : FA) (f t : Nat) : FA where
  fields := listMove f t s.fields
  dirty := listMove f t s.dirty
  touched := listMove f t s.touched
  errors := listMove f t s.errors
  nextId := s.nextId

/-- `replace(index, value)`: the element at the index is replaced by a
newly inserted one (fresh identity, empty mirror entries). -/
def FA.replaceAt (s : FA) (j : Nat) (v : Val) : FA where
  fields := listModify (fun _ => (s.nextId, v)) j s.fields
  dirty := listModify (fun _ => none) j s.dirty
  touched := listModify (fun _ => none) j s.touched
  errors := listModify (fun _ => none) j s.errors
  nextId := s.nextId + 1

/-- `update(index, value)`: a pure value edit — the element's identity
and the mirrors stay untouched. -/
def FA.updateAt (s : FA) (i : Nat) (v : Val) : FA :=
  { s with fields := listModify (fun pr => (pr.1, v)) i s.fields }

/-- The structural field-array mutations of §4.6. -/
inductive ArrOp where
  | insert (p : Nat) (vs : List Val)
  | remove (j : Nat)
  | swap (a b : Nat)
  | move (f t : Nat)
  | replace (j : Nat) (v : Val)

/-- Dispatch of a structural mutation. -/
def FA.apply (s : FA) : ArrOp → FA
  | .insert p vs => s.insertAt p vs
  | .remove j => s.removeAt j
  | .swap a b => s.swapAt a b
  | .move f t => s.moveAt f t
  | .replace j v => s.replaceAt j v

/-- The common position map of a structural mutation over a list of
length `n`: for each new position, the old position its entry came
from, or `none` for a freshly inserted slot. -/
def opPosMap (op : ArrOp) (n : Nat) (i : Nat) : Option Nat :=
  match op with
  | .insert p vs =>
      if i < min p n then some i
      else if i < min p n + vs.length then none
      else some (i - vs.length)
  | .remove j =>
      if j < n then (if i < j then some i else some (i + 1)) else some i
  | .swap a b =>
      if a < n ∧ b < n then some (swapIdx a b i) else some i
  | .move f t =>
      if f < n then
        (if i < min t (n - 1) then (if i < f then some i else some (i + 1))
         else if i = min t (n - 1) then some f
         else if i - 1 < f then some (i - 1) else some i)
      else some i
  | .replace j _ =>
      if i = j ∧ j < n then none else some i


/-- The reindexing a structural mutation applies to a mirror, with the
freshly inserted slots holding `fill`. -/
def genApply (op : ArrOp) (fill : β) (m : List β) : List β :=
  match op with
  | .insert p vs => listInsertAll p (List.replicate vs.length fill) m
  | .remove j => listRemoveAt j m
  | .swap a b => listSwap a b m
  | .move f t => listMove f t m
  | .replace j _ => listModify (fun _ => fill) j m

/-- The reindexing a structural mutation applies to the element list
itself, with freshly generated identities starting at `c`. -/
def fieldsApply (op : ArrOp) (c : Nat) (xs : List (Nat × Val)) : List (Nat × Val) :=
  match op with
  | .insert p vs => listInsertAll p (genIds c vs) xs
  | .remove j => listRemoveAt j xs
  | .swap a b => listSwap a b xs
  | .move f t => listMove f t xs
  | .replace j v => listModify (fun _ => (c, v)) j xs

theorem genApply_corr (op : ArrOp) (fill : β) (m : List β) (n : Nat)
    (hm : m.length = n) (i : Nat) :
    (match opPosMap op n i with
     | some j => (genApply op fill m)[i]? = m[j]?
     | none => (genApply op fill m)[i]? = some fill) := by
  subst hm
  cases op with
  | insert p vs =>
      simp only [genApply, opPosMap]
      rw [getElem?_listInsertAll]
      simp only [List.length_replicate]
      by_cases h1 : i < min p m.length
      · simp only [if_pos h1]
      · rw [if_neg h1]
        by_cases h2 : i < min p m.length + vs.length
        · simp only [if_neg h1, if_pos h2]
          rw [List.getElem?_replicate, if_pos (by omega)]
        · simp only [if_neg h1, if_neg h2]
  | remove j =>
      simp only [genApply, opPosMap]
      by_cases hj : j < m.length
      · simp only [if_pos hj]
        rw [getElem?_listRemoveAt m j i hj]
        by_cases hi : i < j
        · simp only [if_pos hi]
        · simp only [if_neg hi]
      · simp only [if_neg hj]
        rw [listRemoveAt_of_ge m j (Nat.le_of_not_lt hj)]
  | swap a b =>
      simp only [genApply, opPosMap]
      by_cases h : a < m.length ∧ b < m.length
      · simp only [if_pos h]
        exact getElem?_listSwap m a b h.1 h.2 i
      · simp only [if_neg h]
        unfold listSwap
        rw [dif_neg h]
  | move f t =>
      simp only [genApply, opPosMap]
      by_cases hf : f < m.length
      · simp only [if_pos hf]
        rw [getElem?_listMove m f t i hf]
        by_cases h1 : i < min t (m.length - 1)
        · simp only [if_pos h1]
          by_cases h2 : i < f
          · simp only [if_pos h2]
          · simp only [if_neg h2]
        · simp only [if_neg h1]
          by_cases h2 : i = min t (m.length - 1)
          · simp only [if_pos h2]
          · simp only [if_neg h2]
            by_cases h3 : i - 1 < f
            · simp only [if_pos h3]
            · simp only [if_neg h3]
      · simp only [if_neg hf]
        unfold listMove
        rw [List.getElem?_eq_none (Nat.le_of_not_lt hf)]
  | replace j v =>
      simp only [genApply, opPosMap]
      rw [getElem?_listModify]
      by_cases h : i = j ∧ j < m.length
      · simp only [if_pos h, if_pos h.1]
        rw [List.getElem?_eq_getElem h.2]
        rfl
      · simp only [if_neg h]
        by_cases hij : i = j
        · have hjlen : ¬ j < m.length := fun hl => h ⟨hij, hl⟩
          rw [if_pos hij, hij, List.getElem?_eq_none (Nat.le_of_not_lt hjlen)]
          rfl
        · rw [if_neg hij]

theorem fields_corr (op : ArrOp) (c : Nat) (xs : List (Nat × Val)) (n : Nat)
    (hn : xs.length = n) (i : Nat) :
    (match opPosMap op n i with
     | some j => (fieldsApply op c xs)[i]? = xs[j]?
     | none => ∃ pr, (fieldsApply op c xs)[i]? = some pr ∧ c ≤ pr.1) := by
  subst hn
  cases op with
  | insert p vs =>
      simp only [fieldsApply, opPosMap]
      rw [getElem?_listInsertAll]
      simp only [length_genIds]
      by_cases h1 : i < min p xs.length
      · simp only [if_pos h1]
      · rw [if_neg h1]
        by_cases h2 : i < min p xs.length + vs.length
        · simp only [if_neg h1, if_pos h2]
          rw [getElem?_genIds]
          have hlt : i - min p xs.length < vs.length := by omega
          rw [List.getElem?_eq_getElem hlt]
          exact ⟨(c + (i - min p xs.length), vs[i - min p xs.length]),
            rfl, Nat.le_add_right c _⟩
        · simp only [if_neg h1, if_neg h2]
  | remove j =>
      simp only [fieldsApply, opPosMap]
      by_cases hj : j < xs.length
      · simp only [if_pos hj]
        rw [getElem?_listRemoveAt xs j i hj]
        by_cases hi : i < j
        · simp only [if_pos hi]
        · simp only [if_neg hi]
      · simp only [if_neg hj]
        rw [listRemoveAt_of_ge xs j (Nat.le_of_not_lt hj)]
  | swap a b =>
      simp only [fieldsApply, opPosMap]
      by_cases h : a < xs.length ∧ b < xs.length
      · simp only [if_pos h]
        exact getElem?_listSwap xs a b h.1 h.2 i
      · simp only [if_neg h]
        unfold listSwap
        rw [dif_neg h]
  | move f t =>
      simp only [fieldsApply, opPosMap]
      by_cases hf : f < xs.length
      · simp only [if_pos hf]
        rw [getElem?_listMove xs f t i hf]
        by_cases h1 : i < min t (xs.length - 1)
        · simp only [if_pos h1]
          by_cases h2 : i < f
          · simp only [if_pos h2]
          · simp only [if_neg h2]
        · simp only [if_neg h1]
          by_cases h2 : i = min t (xs.length - 1)
          · simp only [if_pos h2]
          · simp only [if_neg h2]
            by_cases h3 : i - 1 < f
            · simp only [if_pos h3]
            · simp only [if_neg h3]
      · simp only [if_neg hf]
        unfold listMove
        rw [List.getElem?_eq_none (Nat.le_of_not_lt hf)]
  | replace j v =>
      simp only [fieldsApply, opPosMap]
      rw [getElem?_listModify]
      by_cases h : i = j ∧ j < xs.length
      · simp only [if_pos h, if_pos h.1]
        rw [List.getElem?_eq_getElem h.2]
        exact ⟨(c, v), rfl, Nat.le_refl c⟩
      · simp only [if_neg h]
        by_cases hij : i = j
        · have hjlen : ¬ j < xs.length := fun hl => h ⟨hij, hl⟩
          rw [if_pos hij, hij, List.getElem?_eq_none (Nat.le_of_not_lt hjlen)]
          rfl
        · rw [if_neg hij]

theorem apply_fields_eq (s : FA) (op : ArrOp) :
    (s.apply op).fields = fieldsApply op s.nextId s.fields := by
  cases op <;> rfl

theorem apply_dirty_eq (s : FA) (op : ArrOp) :
    (s.apply op).dirty = genApply op none s.dirty := by
  cases op <;> rfl

theorem apply_touched_eq (s : FA) (op : ArrOp) :
    (s.apply op).touched = genApply op none s.touched := by
  cases op <;> rfl

theorem apply_errors_eq (s : FA) (op : ArrOp) :
    (s.apply op).errors = genApply op none s.errors := by
  cases op <;> rfl

/-- The spec's worked example: identities `[a, b, c]` (generated ids
0, 1, 2), an error on index 1. -/
def C2ex : FA :=
  ⟨[(0, Val.str "a"), (1, Val.str "b"), (2, Val.str "c")],
   [none, none, none], [none, none, none],
   [none, some (Val.str "e1"), none], 3⟩


/-- C2: every structural field-array mutation reindexes the DirtyMirror,
TouchedMirror and ErrorTree entries identically to the value elements —
one common position map governs all four lists, surviving entries
travel together with their element, and freshly inserted slots carry a
fresh identity and empty mirror entries; in particular removing index 0
from identities `[a, b, c]` with an error on index 1 yields identities
`[b, c]` with the error attached to index 0, and a prepend shifts every
existing dirty/touched/error entry up by the number of inserted
elements. -/
theorem C2_fieldArray_mirror_reindexing :
    (∀ (s : FA) (op : ArrOp), s.Aligned → ∀ i : Nat,
      (match opPosMap op s.fields.length i with
       | some j =>
           (s.apply op).fields[i]? = s.fields[j]? ∧
           (s.apply op).dirty[i]? = s.dirty[j]? ∧
           (s.apply op).touched[i]? = s.touched[j]? ∧
           (s.apply op).errors[i]? = s.errors[j]?
       | none =>
           (∃ pr, (s.apply op).fields[i]? = some pr ∧ s.nextId ≤ pr.1) ∧
           (s.apply op).dirty[i]? = some none ∧
           (s.apply op).touched[i]? = some none ∧
           (s.apply op).errors[i]? = some none)) ∧
    (∀ (s : FA) (vs : List Val) (i : Nat),
        (s.prependN vs).dirty[vs.length + i]? = s.dirty[i]? ∧
        (s.prependN vs).touched[vs.length + i]? = s.touched[i]? ∧
        (s.prependN vs).errors[vs.length + i]? = s.errors[i]?) ∧
    ((C2ex.removeAt 0).fields.map Prod.fst = [1, 2] ∧
     (C2ex.removeAt 0).errors = [some (Val.str "e1"), none]) := by
  refine ⟨?_, ?_, ?_, ?_⟩
  · intro s op hA i
    have hf := fields_corr op s.nextId s.fields s.fields.length rfl i
    have hd := genApply_corr op (none : Option Val) s.dirty s.fields.length hA.1 i
    have ht := genApply_corr op (none : Option Val) s.touched s.fields.length hA.2.1 i
    have he := genApply_corr op (none : Option Val) s.errors s.fields.length hA.2.2 i
    rw [← apply_fields_eq] at hf
    rw [← apply_dirty_eq] at hd
    rw [← apply_touched_eq] at ht
    rw [← apply_errors_eq] at he
    cases hmap : opPosMap op s.fields.length i with
    | some j =>
        rw [hmap] at hf hd ht he
        exact ⟨hf, hd, ht, he⟩
    | none =>
        rw [hmap] at hf hd ht he
        exact ⟨hf, hd, ht, he⟩
  · intro s vs i
    have key : ∀ (m : List (Option Val)),
        (listInsertAll 0 (List.replicate vs.length (none : Option Val)) m)[vs.length + i]?
          = m[i]? := by
      intro m
      rw [getElem?_listInsertAll]
      simp only [List.length_replicate, Nat.zero_min]
      have h1 : ¬ vs.length + i < 0 := by omega
      have h2 : ¬ vs.length + i < 0 + vs.length := by omega
      rw [if_neg h1, if_neg h2]
      congr 1
      omega
    exact ⟨key s.dirty, key s.touched, key s.errors⟩
  · rfl
  · rfl

/-- C2 witness: after removing index 0 of the worked example, the entry
that was at position 1 (the error, its element and its mirrors) sits at
position 0. -/
theorem C2_fieldArray_mirror_reindexing_witness :
    FA.Aligned C2ex ∧
    ((C2ex.apply (ArrOp.remove 0)).fields[0]? = C2ex.fields[1]? ∧
     (C2ex.apply (ArrOp.remove 0)).dirty[0]? = C2ex.dirty[1]? ∧
     (C2ex.apply (ArrOp.remove 0)).touched[0]? = C2ex.touched[1]? ∧
     (C2ex.apply (ArrOp.remove 0)).errors[0]? = C2ex.errors[1]?) :=
  ⟨⟨rfl, rfl, rfl⟩,
   C2_fieldArray_mirror_reindexing.1 C2ex (ArrOp.remove 0) ⟨rfl, rfl, rfl⟩ 0⟩


/-! ### Identity stability and uniqueness (C5) -/

theorem memOfGetElem {l : List α} {n : Nat} {a : α} (h : l[n]? = some a) :
    a ∈ l := by
  obtain ⟨hl, rfl⟩ := List.getElem?_eq_some.mp h
  exact List.getElem_mem hl

theorem listInsertAll_nil (p : Nat) (news : List α) :
    listInsertAll p news ([] : List α) = news := by
  cases p <;> rfl

theorem listModify_nil (f : α → α) (j : Nat) :
    listModify f j ([] : List α) = [] := by
  cases j <;> rfl

theorem mem_listInsertAll {z : α} (p : Nat) (news xs : List α) :
    z ∈ listInsertAll p news xs ↔ z ∈ news ∨ z ∈ xs := by
  induction xs generalizing p with
  | nil => simp [listInsertAll_nil]
  | cons x xs ih =>
      cases p with
      | zero => simp [listInsertAll]
      | succ m =>
          simp only [listInsertAll, List.mem_cons, ih m]
          tauto

theorem nodup_listInsertAll (p : Nat) (news xs : List α) :
    xs.Nodup → news.Nodup → (∀ y ∈ news, y ∉ xs) →
      (listInsertAll p news xs).Nodup := by
  induction xs generalizing p with
  | nil =>
      intro _ hnews _
      rw [listInsertAll_nil]
      exact hnews
  | cons x xs ih =>
      intro hxs hnews hdis
      have hx : x ∉ xs := (List.nodup_cons.mp hxs).1
      have hxs' : xs.Nodup := (List.nodup_cons.mp hxs).2
      cases p with
      | zero =>
          rw [listInsertAll, List.nodup_append]
          exact ⟨hnews, hxs, fun y hy => hdis y hy⟩
      | succ m =>
          rw [listInsertAll, List.nodup_cons]
          refine ⟨?_, ih m hxs' hnews
            (fun y hy hmem => hdis y hy (List.mem_cons_of_mem x hmem))⟩
          rw [mem_listInsertAll]
          rintro (h | h)
          · exact hdis x h (List.mem_cons_self x xs)
          · exact hx h

theorem listRemoveAt_sublist (j : Nat) (xs : List α) :
    (listRemoveAt j xs).Sublist xs := by
  induction xs generalizing j with
  | nil => cases j <;> exact List.Sublist.refl _
  | cons x xs ih =>
      cases j with
      | zero => exact (List.Sublist.refl xs).cons x
      | succ m => exact (ih m).cons₂ x

theorem nodup_listRemoveAt (j : Nat) {xs : List α} (h : xs.Nodup) :
    (listRemoveAt j xs).Nodup :=
  (listRemoveAt_sublist j xs).nodup h

theorem mem_listRemoveAt {z : α} {j : Nat} {xs : List α}
    (h : z ∈ listRemoveAt j xs) : z ∈ xs :=
  (listRemoveAt_sublist j xs).subset h

theorem mem_listSwap {z : α} {a b : Nat} {xs : List α}
    (h : z ∈ listSwap a b xs) : z ∈ xs := by
  unfold listSwap at h
  split at h
  · rw [List.mem_ofFn] at h
    obtain ⟨i, rfl⟩ := h
    exact List.get_mem xs _ _
  · exact h

theorem swapIdx_invol (a b i : Nat) : swapIdx a b (swapIdx a b i) = i := by
  unfold swapIdx
  split_ifs <;> omega

theorem swapIdx_inj {a b i j : Nat} (h : swapIdx a b i = swapIdx a b j) :
    i = j := by
  have := congrArg (swapIdx a b) h
  rwa [swapIdx_invol, swapIdx_invol] at this

theorem nodup_listSwap (a b : Nat) {xs : List α} (h : xs.Nodup) :
    (listSwap a b xs).Nodup := by
  unfold listSwap
  split
  · rw [List.nodup_ofFn]
    intro i j hij
    have hg := List.nodup_iff_injective_get.mp h hij
    have hv : swapIdx a b i.val = swapIdx a b j.val := congrArg Fin.val hg
    exact Fin.ext (swapIdx_inj hv)
  · exact h

theorem notMem_listRemoveAt_of_nodup {x : α} (f : Nat) (xs : List α) :
    xs.Nodup → xs[f]? = some x → x ∉ listRemoveAt f xs := by
  induction xs generalizing f with
  | nil => intro _ hx; simp at hx
  | cons y ys ih =>
      intro hnd hx
      have hy : y ∉ ys := (List.nodup_cons.mp hnd).1
      have hys : ys.Nodup := (List.nodup_cons.mp hnd).2
      cases f with
      | zero =>
          simp only [List.getElem?_cons_zero, Option.some_inj] at hx
          subst hx
          simpa [listRemoveAt] using hy
      | succ m =>
          simp only [List.getElem?_cons_succ] at hx
          have hxy : x ≠ y := by
            intro hEq
            exact hy (hEq ▸ memOfGetElem hx)
          simp only [listRemoveAt, List.mem_cons, not_or]
          exact ⟨hxy, ih m hys hx⟩

theorem mem_listMove {z : α} {f t : Nat} {xs : List α}
    (h : z ∈ listMove f t xs) : z ∈ xs := by
  unfold listMove at h
  split at h
  · rename_i x hx
    rw [mem_listInsertAll] at h
    rcases h with h | h
    · simp only [List.mem_singleton] at h
      exact h ▸ memOfGetElem hx
    · exact mem_listRemoveAt h
  · exact h

theorem nodup_listMove (f t : Nat) {xs : List α} (h : xs.Nodup) :
    (listMove f t xs).Nodup := by
  unfold listMove
  split
  · rename_i x hx
    refine nodup_listInsertAll t [x] _ (nodup_listRemoveAt f h)
      (List.nodup_singleton x) ?_
    intro y hy
    rw [List.mem_singleton] at hy
    subst hy
    exact notMem_listRemoveAt_of_nodup f xs h hx
  · exact h

theorem mem_listModifyConst {z y : α} (j : Nat) (xs : List α) :
    z ∈ listModify (fun _ => y) j xs → z = y ∨ z ∈ xs := by
  induction xs generalizing j with
  | nil => intro h; rw [listModify_nil] at h; simp at h
  | cons x xs ih =>
      intro h
      cases j with
      | zero =>
          simp only [listModify, List.mem_cons] at h
          tauto
      | succ m =>
          simp only [listModify, List.mem_cons] at h
          rcases h with h | h
          · subst h
            exact Or.inr (List.mem_cons_self _ _)
          · rcases ih m h with h | h
            · exact Or.inl h
            · exact Or.inr (List.mem_cons_of_mem x h)

theorem nodup_listModifyConst {y : α} (j : Nat) (xs : List α) :
    xs.Nodup → y ∉ xs → (listModify (fun _ => y) j xs).Nodup := by
  induction xs generalizing j with
  | nil =>
      intro _ _
      rw [listModify_nil]
      exact List.nodup_nil
  | cons x xs ih =>
      intro hnd hy
      have hx : x ∉ xs := (List.nodup_cons.mp hnd).1
      have hxs : xs.Nodup := (List.nodup_cons.mp hnd).2
      have hyx : y ≠ x := fun hEq => hy (hEq ▸ List.mem_cons_self x xs)
      have hynot : y ∉ xs := fun hmem => hy (List.mem_cons_of_mem x hmem)
      cases j with
      | zero =>
          rw [listModify, List.nodup_cons]
          exact ⟨hynot, hxs⟩
      | succ m =>
          rw [listModify, List.nodup_cons]
          refine ⟨?_, ih m hxs hynot⟩
          intro hmem
          rcases mem_listModifyConst m xs hmem with h | h
          · exact hyx h.symm
          · exact hx h


theorem map_listInsertAll (g : α → β) (p : Nat) (news xs : List α) :
    (listInsertAll p news xs).map g = listInsertAll p (news.map g) (xs.map g) := by
  induction xs generalizing p with
  | nil => simp [listInsertAll_nil]
  | cons x xs ih =>
      cases p with
      | zero => simp [listInsertAll]
      | succ m => simp [listInsertAll, ih m]

theorem map_listRemoveAt (g : α → β) (j : Nat) (xs : List α) :
    (listRemoveAt j xs).map g = listRemoveAt j (xs.map g) := by
  induction xs generalizing j with
  | nil => cases j <;> rfl
  | cons x xs ih =>
      cases j with
      | zero => rfl
      | succ m => simp [listRemoveAt, ih m]

theorem map_listSwap (g : α → β) (a b : Nat) (xs : List α) :
    (listSwap a b xs).map g = listSwap a b (xs.map g) := by
  by_cases h : a < xs.length ∧ b < xs.length
  · apply List.ext_getElem?
    intro i
    rw [List.getElem?_map, getElem?_listSwap xs a b h.1 h.2 i,
      getElem?_listSwap (xs.map g) a b (by simpa using h.1) (by simpa using h.2) i,
      List.getElem?_map]
  · unfold listSwap
    rw [dif_neg h, dif_neg (by simpa using h)]

theorem map_listMove (g : α → β) (f t : Nat) (xs : List α) :
    (listMove f t xs).map g = listMove f t (xs.map g) := by
  unfold listMove
  rw [List.getElem?_map]
  cases hx : xs[f]? with
  | none => simp
  | some x => simp [map_listInsertAll, map_listRemoveAt]

theorem map_listModifyConst (g : α → β) (y : α) (j : Nat) (xs : List α) :
    (listModify (fun _ => y) j xs).map g
      = listModify (fun _ => g y) j (xs.map g) := by
  induction xs generalizing j with
  | nil => simp [listModify_nil]
  | cons x xs ih =>
      cases j with
      | zero => simp [listModify]
      | succ m => simp [listModify, ih m]

theorem map_fst_listModify_update (i : Nat) (v : Val) (xs : List (Nat × Val)) :
    (listModify (fun pr => (pr.1, v)) i xs).map Prod.fst = xs.map Prod.fst := by
  induction xs generalizing i with
  | nil => rw [listModify_nil]
  | cons x xs ih =>
      cases i with
      | zero => simp [listModify]
      | succ m => simp [listModify, ih m]

theorem listInsertAll_zero (news xs : List α) :
    listInsertAll 0 news xs = news ++ xs := by
  cases xs with
  | nil => rw [listInsertAll_nil, List.append_nil]
  | cons x xs => rfl

/-- The reindexing of the bare identity list. -/
def idsApply (op : ArrOp) (c : Nat) (ids : List Nat) : List Nat :=
  match op with
  | .insert p vs => listInsertAll p (idsFrom c vs.length) ids
  | .remove j => listRemoveAt j ids
  | .swap a b => listSwap a b ids
  | .move f t => listMove f t ids
  | .replace j _ => listModify (fun _ => c) j ids

theorem map_fst_fieldsApply (op : ArrOp) (c : Nat) (xs : List (Nat × Val)) :
    (fieldsApply op c xs).map Prod.fst = idsApply op c (xs.map Prod.fst) := by
  cases op with
  | insert p vs => simp [fieldsApply, idsApply, map_listInsertAll, genIds_map_fst]
  | remove j => simp [fieldsApply, idsApply, map_listRemoveAt]
  | swap a b => simp [fieldsApply, idsApply, map_listSwap]
  | move f t => simp [fieldsApply, idsApply, map_listMove]
  | replace j v => simp [fieldsApply, idsApply, map_listModifyConst]

/-- The identity counter after a structural mutation: it advances by the
number of freshly generated identities. -/
def nextIdAfter (op : ArrOp) (c : Nat) : Nat :=
  match op with
  | .insert _ vs => c + vs.length
  | .replace _ _ => c + 1
  | _ => c

theorem apply_nextId_eq (s : FA) (op : ArrOp) :
    (s.apply op).nextId = nextIdAfter op s.nextId := by
  cases op <;> rfl

theorem idsApply_nodup (op : ArrOp) (c : Nat) (ids : List Nat)
    (hnd : ids.Nodup) (hb : ∀ x ∈ ids, x < c) : (idsApply op c ids).Nodup := by
  cases op with
  | insert p vs =>
      refine nodup_listInsertAll p _ _ hnd (nodup_idsFrom c vs.length) ?_
      intro y hy hmem
      have h1 := mem_idsFrom.mp hy
      have h2 := hb y hmem
      omega
  | remove j => exact nodup_listRemoveAt j hnd
  | swap a b => exact nodup_listSwap a b hnd
  | move f t => exact nodup_listMove f t hnd
  | replace j v =>
      refine nodup_listModifyConst j _ hnd ?_
      intro hmem
      have := hb c hmem
      omega

theorem idsApply_bound (op : ArrOp) (c : Nat) (ids : List Nat)
    (hb : ∀ x ∈ ids, x < c) :
    ∀ x ∈ idsApply op c ids, x < nextIdAfter op c := by
  cases op with
  | insert p vs =>
      intro x hx
      rcases (mem_listInsertAll p _ _).mp hx with h | h
      · have := mem_idsFrom.mp h
        simp only [nextIdAfter]
        omega
      · have := hb x h
        simp only [nextIdAfter]
        omega
  | remove j => exact fun x hx => hb x (mem_listRemoveAt hx)
  | swap a b => exact fun x hx => hb x (mem_listSwap hx)
  | move f t => exact fun x hx => hb x (mem_listMove hx)
  | replace j v =>
      intro x hx
      rcases mem_listModifyConst j _ hx with h | h
      · subst h
        simp only [nextIdAfter]
        omega
      · have := hb x h
        simp only [nextIdAfter]
        omega

/-- The identity invariant: every element's generated identity is
pairwise distinct within the form instance and below the generation
counter. -/
def FA.Inv (s : FA) : Prop :=
  (s.fields.map Prod.fst).Nodup ∧
  ∀ id ∈ s.fields.map Prod.fst, id < s.nextId

/-- A one-element array state with identity 5, counter 6. -/
def C5ex : FA := ⟨[(5, Val.str "x")], [none], [none], [none], 6⟩

/-- C5: identities are generated fresh at insertion and stay unique
(every structural mutation preserves the identity invariant); for every
structural mutation (insert/prepend/remove/swap/move/replace), each
surviving element keeps its original identity together with its value
(the same position map as in §4.6 carries the whole (identity, value)
pair), and only the freshly inserted slots carry new identities, all of
them at or above the old generation counter; editing a value through
`update` never changes any identity; a prepend gives the inserted
elements the fresh identities followed by the unchanged surviving
identities (so prepending to `[a]` yields `[fresh, a]`); removal keeps
every survivor's identity. -/
theorem C5_identity_stability :
    (∀ (s : FA) (op : ArrOp), s.Inv → (s.apply op).Inv) ∧
    (∀ (s : FA) (op : ArrOp) (i : Nat),
        (match opPosMap op s.fields.length i with
         | some j => (s.apply op).fields[i]? = s.fields[j]?
         | none => ∃ pr, (s.apply op).fields[i]? = some pr ∧ s.nextId ≤ pr.1)) ∧
    (∀ (s : FA) (i : Nat) (v : Val),
        (s.updateAt i v).fields.map Prod.fst = s.fields.map Prod.fst) ∧
    (∀ (s : FA) (vs : List Val),
        (s.prependN vs).fields.map Prod.fst
          = idsFrom s.nextId vs.length ++ s.fields.map Prod.fst) ∧
    (∀ (s : FA) (j : Nat),
        (s.removeAt j).fields.map Prod.fst
          = listRemoveAt j (s.fields.map Prod.fst)) ∧
    ((C5ex.prependN [Val.str "y"]).fields.map Prod.fst = [6, 5]) := by
  refine ⟨?_, ?_, ?_, ?_, ?_, rfl⟩
  · intro s op hInv
    constructor
    · rw [apply_fields_eq, map_fst_fieldsApply]
      exact idsApply_nodup op s.nextId _ hInv.1 hInv.2
    · intro id hid
      rw [apply_nextId_eq]
      rw [apply_fields_eq, map_fst_fieldsApply] at hid
      exact idsApply_bound op s.nextId _ hInv.2 id hid
  · intro s op i
    have hf := fields_corr op s.nextId s.fields s.fields.length rfl i
    rw [← apply_fields_eq] at hf
    exact hf
  · intro s i v
    exact map_fst_listModify_update i v s.fields
  · intro s vs
    show (listInsertAll 0 (genIds s.nextId vs) s.fields).map Prod.fst = _
    rw [map_listInsertAll, genIds_map_fst, listInsertAll_zero]
  · intro s j
    exact map_listRemoveAt Prod.fst j s.fields

/-- C5 witness: the identity invariant holds for a concrete state and is
preserved by a concrete insertion, and the surviving element of that
insertion keeps its (identity, value) pair at its shifted position. -/
theorem C5_identity_stability_witness :
    (FA.Inv C5ex ∧ FA.Inv (C5ex.apply (ArrOp.insert 0 [Val.str "y"]))) ∧
    (C5ex.apply (ArrOp.insert 0 [Val.str "y"])).fields[1]? = C5ex.fields[0]? := by
  have hInv : FA.Inv C5ex := ⟨by decide, by decide⟩
  exact ⟨⟨hInv, C5_identity_stability.1 C5ex _ hInv⟩,
    C5_identity_stability.2.1 C5ex (ArrOp.insert 0 [Val.str "y"]) 1⟩


/-! ### Validation staleness (§4.4, C3) -/

/-- Modelled from the spec: the Validation Orchestrator's staleness
guard for one name-set key — a monotonically increasing generation
counter; each pass captures a token at start; a completed pass commits
its result only when its captured token still equals the counter.
(The orchestrator's implementation is not under src/.) -/
structure ValState where
  counter : Nat
  committed : Option Val

/-- Initiate a validation pass: bump the generation counter and hand the
new value to the pass as its token. -/
def startPass (s : ValState) : Nat × ValState :=
  (s.counter + 1, { s with counter := s.counter + 1 })

/-- Complete a validation pass: commit the result only when the captured
token is still the current counter. -/
def completePass (s : ValState) (token : Nat) (result : Val) : ValState :=
  if token = s.counter then { s with committed := some result } else s

/-- Start pass A, then pass B, resolve B, then resolve A. -/
def raceScenario (s : ValState) (rA rB : Val) : ValState :=
  let tA := (startPass s).1
  let s1 := (startPass s).2
  let tB := (startPass s1).1
  let s2 := (startPass s1).2
  let s3 := completePass s2 tB rB
  completePass s3 tA rA

/-- C3: a pass whose token is no longer current is discarded without any
state change, a pass whose token is current commits, tokens grow
strictly — hence in the A-starts/B-starts/B-resolves/A-resolves race,
A's completion is a no-op and B's committed result survives. -/
theorem C3_validation_staleness :
    (∀ (s : ValState) (tok : Nat) (r : Val),
        tok ≠ s.counter → completePass s tok r = s) ∧
    (∀ (s : ValState) (tok : Nat) (r : Val),
        tok = s.counter → (completePass s tok r).committed = some r) ∧
    (∀ s : ValState, (startPass s).1 = (startPass s).2.counter ∧
        s.counter < (startPass s).1) ∧
    (∀ (s : ValState) (rA rB : Val),
        raceScenario s rA rB
          = completePass (startPass (startPass s).2).2
              (startPass (startPass s).2).1 rB ∧
        (raceScenario s rA rB).committed = some rB) := by
  refine ⟨?_, ?_, ?_, ?_⟩
  · intro s tok r h
    unfold completePass
    rw [if_neg h]
  · intro s tok r h
    unfold completePass
    rw [if_pos h]
  · intro s
    exact ⟨rfl, Nat.lt_succ_self _⟩
  · intro s rA rB
    have hB : completePass (startPass (startPass s).2).2
        (startPass (startPass s).2).1 rB
        = ({ counter := s.counter + 1 + 1, committed := some rB } : ValState) :=
      if_pos rfl
    have hA : completePass
        ({ counter := s.counter + 1 + 1, committed := some rB } : ValState)
        (startPass s).1 rA
        = ({ counter := s.counter + 1 + 1, committed := some rB } : ValState) :=
      if_neg (by omega : ¬ (s.counter + 1 = s.counter + 1 + 1))
    have hrace : raceScenario s rA rB
        = ({ counter := s.counter + 1 + 1, committed := some rB } : ValState) := by
      show completePass (completePass (startPass (startPass s).2).2
        (startPass (startPass s).2).1 rB) (startPass s).1 rA = _
      rw [hB, hA]
    exact ⟨by rw [hrace, hB], by rw [hrace]⟩

/-- C3 witness: a stale token (3, while the counter is 5) is discarded;
a current token commits. -/
theorem C3_validation_staleness_witness :
    ((3 : Nat) ≠ (⟨5, none⟩ : ValState).counter ∧
      completePass ⟨5, none⟩ 3 (Val.str "stale") = ⟨5, none⟩) ∧
    ((5 : Nat) = (⟨5, none⟩ : ValState).counter ∧
      (completePass ⟨5, none⟩ 5 (Val.str "fresh")).committed
        = some (Val.str "fresh")) :=
  ⟨⟨by decide, C3_validation_staleness.1 ⟨5, none⟩ 3 (Val.str "stale") (by decide)⟩,
   ⟨rfl, C3_validation_staleness.2.1 ⟨5, none⟩ 5 (Val.str "fresh") rfl⟩⟩

/-! ### Submit flow (§4.4, C4) -/

/-- The submit-related slice of FormState
(src/src/types/form.ts lines 102-113). -/
structure SubmitState where
  isSubmitted : Bool
  isSubmitting : Bool
  isSubmitSuccessful : Bool
  submitCount : Nat

/-- The outcome of an invoked user callback: a normal return, or a
throw / rejection. -/
inductive CbOutcome where
  | ok : CbOutcome
  | threw : CbOutcome

/-- The try-block of the submit handler: whole-form validation has
produced `errs`; an empty error set invokes onValid, otherwise
onInvalid runs; either callback may throw. -/
def submitBody (errs : List (String × Val))
    (onValidRes onInvalidRes : CbOutcome) : Except Unit Unit :=
  if errs.isEmpty then
    (match onValidRes with
     | .ok => Except.ok ()
     | .threw => Except.error ())
  else
    (match onInvalidRes with
     | .ok => Except.ok ()
     | .threw => Except.error ())

/-- The finally-block of the submit handler. -/
def finalizeSubmit (s : SubmitState) (errs : List (String × Val)) : SubmitState :=
  { s with
    isSubmitted := true
    isSubmitting := false
    isSubmitSuccessful := errs.isEmpty
    submitCount := s.submitCount + 1 }

/-- Modelled from the spec: the handler returned by
`handleSubmit(onValid, onInvalid)` — sets `isSubmitting := true`, runs
whole-form validation (its error set is `errs`), runs the branch body
under a try/finally, always applies the finally-block state patch, and
re-surfaces a callback exception to the caller afterwards. Returns the
final state and the surfaced exception, if any. (handleSubmit's
implementation is not under src/, only its type,
src/src/types/form.ts lines 576-579.) -/
def handleSubmitRun (s : SubmitState) (errs : List (String × Val))
    (onValidRes onInvalidRes : CbOutcome) : SubmitState × Option Unit :=
  let sStart := { s with isSubmitting := true }
  let body := submitBody errs onValidRes onInvalidRes
  (finalizeSubmit sStart errs,
   match body with
   | Except.ok _ => none
   | Except.error _ => some ())

/-- C4: whatever the validation outcome and whether either callback
throws, after the handler completes the state has isSubmitted = true,
isSubmitting = false, isSubmitSuccessful = (the error set was empty)
and submitCount incremented by exactly one; an exception is surfaced
exactly when the invoked callback threw — and even then isSubmitting is
false. -/
theorem C4_handleSubmit_always_finalizes :
    ∀ (s : SubmitState) (errs : List (String × Val))
      (cv ci : CbOutcome),
      (handleSubmitRun s errs cv ci).1.isSubmitted = true ∧
      (handleSubmitRun s errs cv ci).1.isSubmitting = false ∧
      (handleSubmitRun s errs cv ci).1.isSubmitSuccessful = errs.isEmpty ∧
      (handleSubmitRun s errs cv ci).1.submitCount = s.submitCount + 1 ∧
      ((handleSubmitRun s errs cv ci).2 = some () ↔
        (if errs.isEmpty then cv else ci) = CbOutcome.threw) := by
  intro s errs cv ci
  refine ⟨rfl, rfl, rfl, rfl, ?_⟩
  unfold handleSubmitRun submitBody
  by_cases h : errs.isEmpty
  · cases cv <;> simp [h]
  · cases ci <;> simp [h]

/-! ### State-channel gating (§4.5, C6) -/

/-- The form-state fields a subscriber can read through the proxy
(FormStateProxy, src/src/types/form.ts lines 91-98). -/
inductive StateKey where
  | isDirty : StateKey
  | isValidating : StateKey
  | dirtyFields : StateKey
  | touchedFields : StateKey
  | errors : StateKey
  | isValid : StateKey
deriving DecidableEq, Repr

/-- A subscriber's recorded read-set: one flag per FormStateProxy key
(ReadFormState, src/src/types/form.ts line 100). -/
structure ReadFormState where
  isDirty : Bool
  isValidating : Bool
  dirtyFields : Bool
  touchedFields : Bool
  errors : Bool
  isValid : Bool

/-- Whether the subscriber has read the given form-state field. -/
def readsKey (r : ReadFormState) : StateKey → Bool
  | .isDirty => r.isDirty
  | .isValidating => r.isValidating
  | .dirtyFields => r.dirtyFields
  | .touchedFields => r.touchedFields
  | .errors => r.errors
  | .isValid => r.isValid

/-- Modelled from the spec: the delta actually dispatched to a
subscriber is the published delta restricted to the fields in the
subscriber's read-set (§4.5; the gating implementation is not under
src/). -/
def filterDelta (r : ReadFormState) (delta : List StateKey) : List StateKey :=
  delta.filter (readsKey r)

/-- Modelled from the spec: a subscriber opted into `all` always gets
the delta; otherwise it is woken up only when its filtered delta is
non-empty. -/
def shouldNotifySubscriber (all : Bool) (r : ReadFormState)
    (delta : List StateKey) : Bool :=
  all || !(filterDelta r delta).isEmpty

/-- C6: a subscriber not opted into `all` is dispatched a delta exactly
when the delta touches a field in its read-set; one that never read
`errors` (resp. `isValid`) is not woken by a pure errors (resp.
validity) change; one that has read `isDirty` is woken whenever
`isDirty` changes. -/
theorem C6_state_channel_gating :
    (∀ (r : ReadFormState) (delta : List StateKey),
        shouldNotifySubscriber false r delta = true ↔
          ∃ k ∈ delta, readsKey r k = true) ∧
    (∀ r : ReadFormState, r.errors = false →
        shouldNotifySubscriber false r [StateKey.errors] = false) ∧
    (∀ r : ReadFormState, r.isValid = false →
        shouldNotifySubscriber false r [StateKey.isValid] = false) ∧
    (∀ (r : ReadFormState) (delta : List StateKey), r.isDirty = true →
        StateKey.isDirty ∈ delta →
        shouldNotifySubscriber false r delta = true) ∧
    (∀ (r : ReadFormState) (delta : List StateKey),
        shouldNotifySubscriber true r delta = true) := by
  refine ⟨?_, ?_, ?_, ?_, ?_⟩
  · intro r delta
    simp [shouldNotifySubscriber, filterDelta, List.isEmpty_iff,
      List.filter_eq_nil_iff]
  · intro r h
    simp [shouldNotifySubscriber, filterDelta, readsKey, h]
  · intro r h
    simp [shouldNotifySubscriber, filterDelta, readsKey, h]
  · intro r delta h hmem
    simp only [shouldNotifySubscriber, filterDelta, Bool.false_or]
    have : StateKey.isDirty ∈ delta.filter (readsKey r) := by
      rw [List.mem_filter]
      exact ⟨hmem, by simp [readsKey, h]⟩
    cases hfe : delta.filter (readsKey r) with
    | nil => rw [hfe] at this; simp at this
    | cons a l => simp
  · intro r delta
    simp [shouldNotifySubscriber]

/-- C6 witness: a subscriber that read only `isDirty` is woken by an
isDirty change but not by a pure errors change. -/
theorem C6_state_channel_gating_witness :
    ((⟨true, false, false, false, false, false⟩ : ReadFormState).errors = false ∧
      shouldNotifySubscriber false ⟨true, false, false, false, false, false⟩
        [StateKey.errors] = false) ∧
    ((⟨true, false, false, false, false, false⟩ : ReadFormState).isDirty = true ∧
      StateKey.isDirty ∈ [StateKey.isDirty] ∧
      shouldNotifySubscriber false ⟨true, false, false, false, false, false⟩
        [StateKey.isDirty] = true) :=
  ⟨⟨rfl, C6_state_channel_gating.2.1 _ rfl⟩,
   ⟨rfl, List.mem_singleton.mpr rfl,
    C6_state_channel_gating.2.2.2.1 _ [StateKey.isDirty] rfl
      (List.mem_singleton.mpr rfl)⟩⟩

/-! ### Touched monotonicity (§4.3, C7) -/

/-- Modelled from the spec: the edits that can occur without a reset or
an unregister — `recordChange` writes a value, a blur marks the path
touched (`setTouched`), `setValue` writes and touches per its
`shouldTouch` option. (The diff engine's implementation is not under
src/.) -/
inductive Edit where
  | recordChange (p : List Seg) (v : Val) : Edit
  | recordBlur (p : List Seg) : Edit
  | setValue (p : List Seg) (v : Val) (shouldTouch : Bool) : Edit

/-- Value tree plus TouchedMirror (the set of touched paths). -/
structure FormSM where
  values : Val
  touched : List (List Seg)

/-- One edit step. -/
def applyEdit (s : FormSM) : Edit → FormSM
  | .recordChange p v => { s with values := s.values.set p v }
  | .recordBlur p => { s with touched := p :: s.touched }
  | .setValue p v st =>
      { values := s.values.set p v,
        touched := if st then p :: s.touched else s.touched }

/-- A sequence of edits. -/
def applyEdits (s : FormSM) : List Edit → FormSM
  | [] => s
  | e :: es => applyEdits (applyEdit s e) es

theorem touched_superset (s : FormSM) (e : Edit) {p : List Seg}
    (h : p ∈ s.touched) : p ∈ (applyEdit s e).touched := by
  cases e with
  | recordChange q v => exact h
  | recordBlur q => exact List.mem_cons_of_mem q h
  | setValue q v st =>
      cases st with
      | true => exact List.mem_cons_of_mem q h
      | false => exact h

/-- C7: touched is monotonic per path — once a path is touched, no
sequence of value edits (without reset or unregister) removes it. -/
theorem C7_touched_monotonic :
    ∀ (s : FormSM) (es : List Edit) (p : List Seg),
      p ∈ s.touched → p ∈ (applyEdits s es).touched := by
  intro s es
  induction es generalizing s with
  | nil => exact fun p h => h
  | cons e es ih =>
      intro p h
      exact ih (applyEdit s e) p (touched_superset s e h)

/-- C7 witness: a touched path survives a concrete sequence of edits. -/
theorem C7_touched_monotonic_witness :
    [Seg.key "a"] ∈ (FormSM.mk Val.undef [[Seg.key "a"]]).touched ∧
    [Seg.key "a"] ∈ (applyEdits (FormSM.mk Val.undef [[Seg.key "a"]])
      [Edit.recordChange [Seg.key "a"] (Val.str "x"),
       Edit.setValue [Seg.key "b"] (Val.num 1) false]).touched :=
  ⟨List.mem_singleton.mpr rfl,
   C7_touched_monotonic _ _ [Seg.key "a"] (List.mem_singleton.mpr rfl)⟩

end FormCore
